import Mathlib

/-!
Verification development for the hinata repository.

The Rust sources are shallowly embedded: strings are modelled as `List Char`
(Rust operates on UTF-8 bytes; every byte compared against by the code under
study is ASCII, so the character level is faithful), fallible functions return
`Except`, and filesystem state is passed explicitly.  Each embedded definition
mirrors one Rust function and is named after it.
-/

namespace Hinata

/-! ## Generic list machinery

`isPre` and `findSplit` model Rust's `str::starts_with` and `str::find`
(leftmost occurrence of a pattern).  They are shared by the embeddings of
the conversation packer/parser, the shell-block extractor and the session
validator below. -/

/-- Boolean test that `p` is a leading segment of `l`. -/
def isPre : List Char → List Char → Bool
  | [], _ => true
  | _ :: _, [] => false
  | a :: p, b :: l => a = b && isPre p l

theorem isPre_iff (p : List Char) : ∀ l : List Char, isPre p l = true ↔ ∃ t, l = p ++ t := by
  induction p with
  | nil => intro l; simp [isPre]
  | cons a p ih =>
    intro l
    cases l with
    | nil => simp [isPre]
    | cons b t =>
      simp only [isPre, Bool.and_eq_true, decide_eq_true_eq, ih t]
      constructor
      · rintro ⟨rfl, u, rfl⟩; exact ⟨u, rfl⟩
      · rintro ⟨u, h⟩
        rw [List.cons_append] at h
        cases h
        exact ⟨rfl, u, rfl⟩

theorem isPre_refl_append (p t : List Char) : isPre p (p ++ t) = true :=
  (isPre_iff p (p ++ t)).mpr ⟨t, rfl⟩

theorem isPre_getElem {p l : List Char} (h : isPre p l = true) :
    ∀ j, j < p.length → l[j]? = p[j]? := by
  obtain ⟨t, rfl⟩ := (isPre_iff p l).mp h
  intro j hj
  rw [List.getElem?_append, if_pos hj]

theorem isPre_length_le {p l : List Char} (h : isPre p l = true) : p.length ≤ l.length := by
  obtain ⟨t, rfl⟩ := (isPre_iff p l).mp h
  simp

theorem isPre_trans_append {p : List Char} :
    ∀ {a b : List Char}, p.length ≤ a.length → isPre p (a ++ b) = true →
      isPre p a = true := by
  induction p with
  | nil => intro a b _ _; simp [isPre]
  | cons c p ih =>
    intro a b hlen h
    cases a with
    | nil => simp at hlen
    | cons x a' =>
      simp only [List.cons_append, isPre, Bool.and_eq_true] at h ⊢
      exact ⟨h.1, ih (by simpa using hlen) h.2⟩

/-- Leftmost split at an occurrence of `pat`: `findSplit pat s = some (pre, suf)`
means `s = pre ++ suf`, `pat` leads `suf`, and `pre` is shortest.
Models Rust `str::find` followed by slicing. -/
def findSplit (pat : List Char) : List Char → Option (List Char × List Char)
  | [] => if isPre pat [] then some ([], []) else none
  | c :: t =>
    if isPre pat (c :: t) then some ([], c :: t)
    else match findSplit pat t with
      | some (pre, suf) => some (c :: pre, suf)
      | none => none

theorem findSplit_parts (pat : List Char) :
    ∀ s pre suf, findSplit pat s = some (pre, suf) →
      s = pre ++ suf ∧ isPre pat suf = true := by
  intro s
  induction s with
  | nil =>
    intro pre suf h
    simp only [findSplit] at h
    split at h
    · cases h; simpa [*]
    · cases h
  | cons c t ih =>
    intro pre suf h
    simp only [findSplit] at h
    split at h
    · cases h; simpa [*]
    · revert h
      split
      · next pre' suf' heq =>
        intro h
        cases h
        obtain ⟨h1, h2⟩ := ih _ _ heq
        exact ⟨by rw [List.cons_append, ← h1], h2⟩
      · intro h; cases h

theorem findSplit_cons_of_not_pre {pat : List Char} {c : Char} {t : List Char}
    (h : isPre pat (c :: t) = false) :
    findSplit pat (c :: t) = (findSplit pat t).map (fun q => (c :: q.1, q.2)) := by
  simp only [findSplit, h]
  cases findSplit pat t with
  | none => rfl
  | some q => cases q; rfl

/-- Central first-occurrence lemma: if the head character of `pat` occurs
nowhere else in `pat`, `pat` occurs nowhere fully inside `a`, and `pat`
leads `b`, then the leftmost occurrence of `pat` in `a ++ b` is exactly at
the boundary. -/
theorem findSplit_boundary {pat a b : List Char} {c : Char}
    (hc : pat.head? = some c)
    (hnotin : c ∉ pat.drop 1)
    (hnia : ∀ i, isPre pat (a.drop i) = false)
    (hb : isPre pat b = true) :
    findSplit pat (a ++ b) = some (a, b) := by
  have hint : ∀ j, 0 < j → pat[j]? ≠ some c := by
    intro j hj hcon
    apply hnotin
    have hd : (pat.drop 1)[j - 1]? = some c := by
      rw [List.getElem?_drop]
      have hj1 : 1 + (j - 1) = j := by omega
      rw [hj1]
      exact hcon
    exact List.getElem?_mem hd
  induction a with
  | nil =>
    cases b with
    | nil => simp only [List.nil_append, findSplit, hb]; rfl
    | cons x u => simp only [List.nil_append, findSplit, hb]; rfl
  | cons x a' ih =>
    have hpat : pat ≠ [] := by intro h; rw [h] at hc; simp at hc
    have hnotpre : isPre pat ((x :: a') ++ b) = false := by
      by_contra hcon
      have hpre : isPre pat ((x :: a') ++ b) = true := by
        cases h' : isPre pat ((x :: a') ++ b) with
        | true => rfl
        | false => exact absurd h' hcon
      by_cases hfit : pat.length ≤ (x :: a').length
      · have := isPre_trans_append hfit hpre
        have h0 := hnia 0
        rw [List.drop_zero] at h0
        rw [this] at h0
        cases h0
      · -- straddling occurrence: the char of `a ++ b` at index `(x :: a').length`
        -- is both `b`'s head (which is `c`) and an interior char of `pat`
        push_neg at hfit
        have hlen : (x :: a').length < pat.length := hfit
        have hj := isPre_getElem hpre (x :: a').length hlen
        rw [List.getElem?_append_right (le_refl _)] at hj
        have hsub : (x :: a').length - (x :: a').length = 0 := by omega
        rw [hsub] at hj
        have hbc : b[0]? = some c := by
          have hb0 := isPre_getElem hb 0 (by omega)
          rw [hb0]
          cases pat with
          | nil => cases hpat rfl
          | cons p ps => simp at hc; simp [hc]
        rw [hbc] at hj
        exact hint (x :: a').length (by simp) hj.symm
    rw [List.cons_append, findSplit_cons_of_not_pre (by rw [← List.cons_append]; exact hnotpre)]
    rw [ih (fun i => hnia (i + 1))]
    rfl

theorem findSplit_none {pat : List Char} :
    ∀ {s : List Char}, (∀ i, isPre pat (s.drop i) = false) → findSplit pat s = none := by
  intro s
  induction s with
  | nil =>
    intro h
    have h0 := h 0
    simp only [List.drop_zero] at h0
    simp [findSplit, h0]
  | cons c t ih =>
    intro h
    have h0 := h 0
    simp only [List.drop_zero] at h0
    rw [findSplit_cons_of_not_pre h0, ih (fun i => h (i + 1))]
    rfl

theorem findSplit_of_isPre {pat s : List Char} (h : isPre pat s = true) :
    findSplit pat s = some ([], s) := by
  cases s with
  | nil => simp [findSplit, h]
  | cons c t => simp [findSplit, h]

theorem isPre_drop_of_findSplit_none {pat : List Char} :
    ∀ {s : List Char}, findSplit pat s = none → ∀ i, isPre pat (s.drop i) = false := by
  intro s
  induction s with
  | nil =>
    intro h i
    simp only [findSplit] at h
    rw [List.drop_nil]
    split at h
    · cases h
    · next hcond =>
      simpa using hcond
  | cons c t ih =>
    intro h i
    have h0 : isPre pat (c :: t) = false := by
      by_contra hcon
      have : isPre pat (c :: t) = true := by
        cases hx : isPre pat (c :: t) with
        | true => rfl
        | false => exact absurd hx hcon
      simp [findSplit, this] at h
    have hrec : findSplit pat t = none := by
      rw [findSplit_cons_of_not_pre h0] at h
      cases hx : findSplit pat t with
      | none => rfl
      | some q => rw [hx] at h; cases h
    cases i with
    | zero => simpa using h0
    | succ j => exact ih hrec j

/-- Occurrence of `pat` as a contiguous factor of `s`. -/
def OccursIn (pat s : List Char) : Prop := ∃ pre suf, s = pre ++ pat ++ suf

theorem occursIn_of_isPre {pat s : List Char} (h : isPre pat s = true) : OccursIn pat s := by
  obtain ⟨t, rfl⟩ := (isPre_iff pat s).mp h
  exact ⟨[], t, rfl⟩

theorem occursIn_cons_of {pat : List Char} {c : Char} {t : List Char}
    (h : OccursIn pat t) : OccursIn pat (c :: t) := by
  obtain ⟨pre, suf, rfl⟩ := h
  exact ⟨c :: pre, suf, rfl⟩

theorem occursIn_cons_elim {pat : List Char} {c : Char} {t : List Char}
    (h : OccursIn pat (c :: t)) :
    isPre pat (c :: t) = true ∨ OccursIn pat t := by
  obtain ⟨pre, suf, heq⟩ := h
  cases pre with
  | nil =>
    left
    refine (isPre_iff pat (c :: t)).mpr ⟨suf, ?_⟩
    simpa using heq
  | cons x pre' =>
    right
    rw [List.cons_append, List.cons_append] at heq
    cases heq
    exact ⟨pre', suf, rfl⟩

theorem not_occursIn_nil {pat : List Char} (h : pat ≠ []) : ¬ OccursIn pat [] := by
  rintro ⟨pre, suf, heq⟩
  have hl := congrArg List.length heq
  simp only [List.length_nil, List.length_append] at hl
  have : pat.length ≠ 0 := by
    intro hx
    exact h (List.length_eq_zero.mp hx)
  omega

theorem isPre_drop_false_iff {pat s : List Char} :
    (∀ i, isPre pat (s.drop i) = false) ↔ ¬ OccursIn pat s := by
  constructor
  · intro h hocc
    obtain ⟨pre, suf, rfl⟩ := hocc
    have := h pre.length
    rw [List.append_assoc, List.drop_left] at this
    rw [isPre_refl_append] at this
    cases this
  · intro h i
    by_contra hcon
    have hpre : isPre pat ((s.drop i)) = true := by
      cases hx : isPre pat (s.drop i) with
      | true => rfl
      | false => exact absurd hx hcon
    obtain ⟨t, ht⟩ := (isPre_iff pat (s.drop i)).mp hpre
    apply h
    refine ⟨s.take i, t, ?_⟩
    conv_lhs => rw [← List.take_append_drop i s]
    rw [ht, List.append_assoc]

/-! ## Escaping (src/rust/crates/hinata-core/src/escaping.rs)

`escape` replaces every `<` with `\<` (streaming over chunks; chunking does
not affect the output, so the per-character model is faithful).
`unescape` is Rust `str::replace("\\<", "<")`: leftmost, non-overlapping. -/

/-- Image of one character under `escape`. -/
def escChar (c : Char) : List Char := if c = '<' then ['\\', '<'] else [c]

/-- Embedding of `escaping::escape`. -/
def escapeL : List Char → List Char
  | [] => []
  | c :: t => escChar c ++ escapeL t

/-- Embedding of `escaping::unescape` (leftmost non-overlapping replacement
of `\<` by `<`). -/
def unescapeL : List Char → List Char
  | [] => []
  | [c] => [c]
  | c :: d :: t =>
    if c = '\\' ∧ d = '<' then '<' :: unescapeL t else c :: unescapeL (d :: t)

theorem unescapeL_esc (t : List Char) :
    unescapeL ('\\' :: '<' :: t) = '<' :: unescapeL t := by
  simp [unescapeL]

theorem unescapeL_cons_of {c : Char} {t : List Char}
    (h : c ≠ '\\' ∨ t.head? ≠ some '<') : unescapeL (c :: t) = c :: unescapeL t := by
  cases t with
  | nil => simp [unescapeL]
  | cons d u =>
    rw [unescapeL]
    rw [if_neg]
    rintro ⟨rfl, rfl⟩
    rcases h with h | h
    · exact h rfl
    · simp at h

theorem escapeL_head_ne : ∀ l : List Char, (escapeL l).head? ≠ some '<' := by
  intro l
  cases l with
  | nil => simp [escapeL]
  | cons c t =>
    by_cases h : c = '<'
    · subst h; simp [escapeL, escChar]
    · simp [escapeL, escChar, h]

/-- The escape/unescape pair round-trips on every body. -/
theorem unescapeL_escapeL (b : List Char) : unescapeL (escapeL b) = b := by
  induction b with
  | nil => rfl
  | cons c t ih =>
    by_cases h : c = '<'
    · subst h
      show unescapeL ('\\' :: '<' :: escapeL t) = '<' :: t
      rw [unescapeL_esc, ih]
    · show unescapeL (escChar c ++ escapeL t) = c :: t
      rw [escChar, if_neg h]
      show unescapeL (c :: escapeL t) = c :: t
      rw [unescapeL_cons_of (Or.inr (escapeL_head_ne t)), ih]

theorem isPre_escapeL {cs : List Char} (h1 : '<' ∉ cs) (h2 : '\\' ∉ cs) :
    ∀ b, isPre cs (escapeL b) = true → isPre cs b = true := by
  induction cs with
  | nil => intro b _; simp [isPre]
  | cons d cs' ih =>
    intro b h
    have hd1 : d ≠ '<' := by intro hx; exact h1 (by simp [hx])
    have hd2 : d ≠ '\\' := by intro hx; exact h2 (by simp [hx])
    cases b with
    | nil => simp [escapeL, isPre] at h
    | cons c t =>
      by_cases hc : c = '<'
      · subst hc
        have : escapeL ('<' :: t) = '\\' :: '<' :: escapeL t := by simp [escapeL, escChar]
        rw [this] at h
        simp only [isPre, Bool.and_eq_true, decide_eq_true_eq] at h
        exact absurd h.1 hd2
      · have : escapeL (c :: t) = c :: escapeL t := by simp [escapeL, escChar, hc]
        rw [this] at h
        simp only [isPre, Bool.and_eq_true, decide_eq_true_eq] at h ⊢
        exact ⟨h.1, ih (fun hx => h1 (by simp [hx])) (fun hx => h2 (by simp [hx])) t h.2⟩

/-- If the escaped body contains the pattern `<cs` (whose tail is free of `<`
and `\`), then so did the body itself: escaping cannot manufacture an
occurrence of a closing tag. -/
theorem occursIn_escapeL {cs : List Char} (h1 : '<' ∉ cs) (h2 : '\\' ∉ cs) :
    ∀ b, OccursIn ('<' :: cs) (escapeL b) → OccursIn ('<' :: cs) b := by
  intro b
  induction b with
  | nil =>
    intro h
    exact absurd h (not_occursIn_nil (by simp))
  | cons c t ih =>
    intro h
    by_cases hc : c = '<'
    · subst hc
      have hesc : escapeL ('<' :: t) = '\\' :: '<' :: escapeL t := by simp [escapeL, escChar]
      rw [hesc] at h
      rcases occursIn_cons_elim h with h' | h'
      · simp only [isPre, Bool.and_eq_true, decide_eq_true_eq] at h'
        exact absurd h'.1.symm (by decide)
      · rcases occursIn_cons_elim h' with h'' | h''
        · simp only [isPre, Bool.and_eq_true, decide_eq_true_eq] at h''
          apply occursIn_of_isPre
          simp only [isPre, Bool.and_eq_true, decide_eq_true_eq]
          exact ⟨by simp, isPre_escapeL h1 h2 t h''.2⟩
        · exact occursIn_cons_of (ih h'')
    · have hesc : escapeL (c :: t) = c :: escapeL t := by simp [escapeL, escChar, hc]
      rw [hesc] at h
      rcases occursIn_cons_elim h with h' | h'
      · simp only [isPre, Bool.and_eq_true, decide_eq_true_eq] at h'
        exact absurd h'.1.symm hc
      · exact occursIn_cons_of (ih h')

/-- Helper: a pattern starting with a character that does not occur in `l`
occurs nowhere in `l`. -/
theorem isPre_drop_of_head_notin {c : Char} {cs l : List Char} (h : c ∉ l) :
    ∀ i, isPre (c :: cs) (l.drop i) = false := by
  rw [isPre_drop_false_iff]
  rintro ⟨pre, suf, heq⟩
  apply h
  rw [heq]
  simp

instance {ε α : Type} [DecidableEq ε] [DecidableEq α] : DecidableEq (Except ε α) := by
  intro a b
  cases a <;> cases b
  case error.error e1 e2 =>
    exact decidable_of_iff (e1 = e2) (by simp)
  case ok.ok a1 a2 =>
    exact decidable_of_iff (a1 = a2) (by simp)
  all_goals exact isFalse (by simp)

/-! ## Conversation data model (src/rust/crates/hinata-core/src/chat.rs)

`Role` is `chat::Role`; `packMessage`/`packConversation` embed the body of
`pack_conversation`'s loop: for each message, `<hnt-{role}>`, the escaped
body, `</hnt-{role}>` and a newline.  The directory listing/sorting layer is
not modelled; the packer takes the chronologically ordered message list
directly. -/

inductive Role
  | user
  | assistant
  | system
  | assistantReasoning
deriving DecidableEq

/-- Display name of a role (`impl fmt::Display for Role`). -/
def roleStr : Role → String
  | .user => "user"
  | .assistant => "assistant"
  | .system => "system"
  | .assistantReasoning => "assistant-reasoning"

/-- One message as produced by the stdin parser: an OpenAI-style role string
and a content string. -/
structure MessageE where
  role : String
  content : List Char
deriving DecidableEq

/-- The closing tag `</hnt-{role}>` written by `pack_conversation`. -/
def closeTagL (r : Role) : List Char :=
  "</hnt-".toList ++ (roleStr r).toList ++ ['>']

/-- One message as written by `pack_conversation`:
`<hnt-{role}>` ++ escaped body ++ `</hnt-{role}>` ++ `"\n"`. -/
def packMessage (r : Role) (body : List Char) : List Char :=
  "<hnt-".toList ++ (roleStr r).toList ++ ['>'] ++ escapeL body ++ closeTagL r ++ ['\n']

/-- Embedding of `chat::pack_conversation` on an ordered message list. -/
def packConversation (msgs : List (Role × List Char)) : List Char :=
  (msgs.map fun m => packMessage m.1 m.2).flatten

/-! ## The sibling role-block parser
(src/rust/crates/hinata-core/src/llm.rs, `build_messages_from_stdin`)

The Rust loop advances `current_pos` through the input; each iteration finds
the next `"<hnt-"`, the first following `'>'`, and the first occurrence of
the derived closing tag.  The embedding recurses on the remaining input with
a fuel counter; one unit of fuel is consumed per loop iteration, and the
remaining input shrinks every iteration, so `length + 1` fuel never runs
out. -/

def tagOpenPat : List Char := "<hnt-".toList

/-- One Rust loop iteration per fuel unit: `acc` is `messages`, `nonTag` is
`non_tag_content`, `s` is the input from `current_pos` on. -/
def parseLoopF : Nat → List MessageE → List Char → List Char →
    Except String (List MessageE × List Char)
  | 0, _, _, _ => .error "out of fuel"
  | fuel + 1, acc, nonTag, s =>
    match findSplit tagOpenPat s with
    | none => .ok (acc, nonTag ++ s)
    | some (pre, suf) =>
      match findSplit ['>'] suf with
      | none => .error "Malformed hnt chat: Unclosed tag"
      | some (tagPre, tagSuf) =>
        let openTag := tagPre ++ ['>']
        let tagName := (openTag.drop 1).dropLast
        let rest := tagSuf.drop 1
        let closing := '<' :: '/' :: (tagName ++ ['>'])
        match findSplit closing rest with
        | none => .error "Malformed hnt chat: Missing closing tag"
        | some (content, closeSuf) =>
          let after := closeSuf.drop closing.length
          if tagName = "hnt-system".toList then
            if acc.any (fun m => m.role = "system") then
              parseLoopF fuel acc (nonTag ++ pre) after
            else
              parseLoopF fuel (acc ++ [⟨"system", unescapeL content⟩]) (nonTag ++ pre) after
          else if tagName = "hnt-user".toList then
            parseLoopF fuel (acc ++ [⟨"user", unescapeL content⟩]) (nonTag ++ pre) after
          else if tagName = "hnt-assistant".toList then
            parseLoopF fuel (acc ++ [⟨"assistant", unescapeL content⟩]) (nonTag ++ pre) after
          else
            parseLoopF fuel acc (nonTag ++ pre) after

/-- Rust `str::trim` on the character list (both ends, whitespace). -/
def trimL (l : List Char) : List Char :=
  ((l.dropWhile Char.isWhitespace).reverse.dropWhile Char.isWhitespace).reverse

/-- Embedding of `build_messages_from_stdin`: run the tag loop, then append
the trimmed, unescaped non-tag remainder as one final user message if it is
non-empty. -/
def buildMessagesL (s : List Char) (systemPrompt : Option (List Char)) :
    Except String (List MessageE) :=
  let acc0 : List MessageE := match systemPrompt with
    | some p => [⟨"system", p⟩]
    | none => []
  match parseLoopF (s.length + 1) acc0 [] s with
  | .error e => .error e
  | .ok (msgs, nonTag) =>
    if trimL nonTag ≠ [] then .ok (msgs ++ [⟨"user", unescapeL (trimL nonTag)⟩])
    else .ok msgs

/-! ## Pack/parse round-trip machinery (claim C1) -/

theorem closeTagL_head (r : Role) : (closeTagL r).head? = some '<' := by
  cases r <;> decide

theorem closeTagL_cons (r : Role) : closeTagL r = '<' :: (closeTagL r).drop 1 := by
  cases r <;> decide

theorem closeTagL_tail_lt (r : Role) : '<' ∉ (closeTagL r).drop 1 := by
  cases r <;> decide

theorem closeTagL_tail_bs (r : Role) : '\\' ∉ (closeTagL r).drop 1 := by
  cases r <;> decide

theorem openTag_no_gt (r : Role) : '>' ∉ ("<hnt-".toList ++ (roleStr r).toList) := by
  cases r <;> decide

theorem closing_eq_closeTagL (r : Role) :
    '<' :: '/' :: (("hnt-".toList ++ (roleStr r).toList) ++ ['>']) = closeTagL r := by
  cases r <;> decide

theorem isPre_tagOpen_replicate (k : Nat) :
    ∀ i, isPre tagOpenPat ((List.replicate k '\n').drop i) = false := by
  have : tagOpenPat = '<' :: "hnt-".toList := rfl
  rw [this]
  apply isPre_drop_of_head_notin
  simp [List.mem_replicate]

theorem escapeL_no_closeTag {r : Role} {body : List Char}
    (hbody : findSplit (closeTagL r) body = none) :
    ∀ i, isPre (closeTagL r) ((escapeL body).drop i) = false := by
  have hno : ¬ OccursIn (closeTagL r) body :=
    isPre_drop_false_iff.mp (isPre_drop_of_findSplit_none hbody)
  rw [isPre_drop_false_iff]
  intro hocc
  apply hno
  rw [closeTagL_cons r] at hocc ⊢
  exact occursIn_escapeL (closeTagL_tail_lt r) (closeTagL_tail_bs r) body hocc

/-- One parser iteration consumes exactly one packed message (possibly after
leading newlines, which go to the non-tag accumulator), provided the body
does not contain its own closing tag and a system message has not already
been seen when the role is `system`. -/
theorem parseLoopF_pack_step (f : Nat) (acc : List MessageE) (nt : List Char) (k : Nat)
    (r : Role) (body tail : List Char)
    (hbody : findSplit (closeTagL r) body = none)
    (hr : r ≠ Role.assistantReasoning)
    (hsys : r = Role.system → acc.any (fun m => m.role = "system") = false) :
    parseLoopF (f + 1) acc nt (List.replicate k '\n' ++ (packMessage r body ++ tail)) =
      parseLoopF f (acc ++ [⟨roleStr r, body⟩]) (nt ++ List.replicate k '\n')
        ('\n' :: tail) := by
  have hshape : packMessage r body ++ tail =
      tagOpenPat ++ ((roleStr r).toList ++
        ('>' :: (escapeL body ++ (closeTagL r ++ ('\n' :: tail))))) := by
    simp [packMessage, tagOpenPat, List.append_assoc]
  have hshapeA : packMessage r body ++ tail =
      ("<hnt-".toList ++ (roleStr r).toList) ++
        ('>' :: (escapeL body ++ (closeTagL r ++ ('\n' :: tail)))) := by
    rw [hshape]; simp [tagOpenPat, List.append_assoc]
  have h1 : findSplit tagOpenPat
      (List.replicate k '\n' ++ (packMessage r body ++ tail)) =
      some (List.replicate k '\n', packMessage r body ++ tail) := by
    apply findSplit_boundary (c := '<')
    · decide
    · decide
    · exact isPre_tagOpen_replicate k
    · rw [hshape]; exact isPre_refl_append _ _
  have h2 : findSplit ['>'] (packMessage r body ++ tail) =
      some ("<hnt-".toList ++ (roleStr r).toList,
        '>' :: (escapeL body ++ (closeTagL r ++ ('\n' :: tail)))) := by
    rw [hshapeA]
    apply findSplit_boundary (c := '>')
    · rfl
    · simp
    · exact isPre_drop_of_head_notin (openTag_no_gt r)
    · simp [isPre]
  have htag : ((("<hnt-".toList ++ (roleStr r).toList) ++ ['>']).tail).dropLast =
      "hnt-".toList ++ (roleStr r).toList := by
    have hcons : ("<hnt-".toList ++ (roleStr r).toList) ++ ['>'] =
        '<' :: (("hnt-".toList ++ (roleStr r).toList) ++ ['>']) := rfl
    rw [hcons, List.tail_cons, List.dropLast_concat]
  have h6 : findSplit (closeTagL r)
      (escapeL body ++ (closeTagL r ++ ('\n' :: tail))) =
      some (escapeL body, closeTagL r ++ ('\n' :: tail)) := by
    apply findSplit_boundary (c := '<')
    · exact closeTagL_head r
    · exact closeTagL_tail_lt r
    · exact escapeL_no_closeTag hbody
    · exact isPre_refl_append _ _
  have h7 : (closeTagL r ++ ('\n' :: tail)).drop (closeTagL r).length = '\n' :: tail :=
    List.drop_left _ _
  simp only [parseLoopF, h1, h2, htag, List.drop_one, List.tail_cons,
    closing_eq_closeTagL r, h6, h7]
  cases r with
  | user =>
    rw [if_neg (by decide), if_pos (by decide)]
    rw [unescapeL_escapeL]
    rfl
  | assistant =>
    rw [if_neg (by decide), if_neg (by decide), if_pos (by decide)]
    rw [unescapeL_escapeL]
    rfl
  | system =>
    rw [if_pos (by decide), if_neg (by simp [hsys rfl])]
    rw [unescapeL_escapeL]
    rfl
  | assistantReasoning => exact absurd rfl hr

theorem roleStr_ne_system {r : Role} (h : r ≠ Role.system) : roleStr r ≠ "system" := by
  cases r <;> first | rfl | decide | exact absurd rfl h

theorem packConversation_cons (r : Role) (body : List Char)
    (rest : List (Role × List Char)) :
    packConversation ((r, body) :: rest) = packMessage r body ++ packConversation rest := by
  simp [packConversation]

theorem parseLoopF_packConversation :
    ∀ (msgs : List (Role × List Char)) (f : Nat) (acc : List MessageE)
      (nt : List Char) (k : Nat),
      msgs.length < f →
      (∀ m ∈ msgs, m.1 ≠ Role.assistantReasoning) →
      (∀ m ∈ msgs, findSplit (closeTagL m.1) m.2 = none) →
      (msgs.filter (fun m => decide (m.1 = Role.system))).length ≤ 1 →
      ((∃ m ∈ msgs, m.1 = Role.system) → acc.any (fun m => m.role = "system") = false) →
      parseLoopF f acc nt (List.replicate k '\n' ++ packConversation msgs) =
        .ok (acc ++ msgs.map (fun m => ⟨roleStr m.1, m.2⟩),
          nt ++ List.replicate k '\n' ++ List.replicate msgs.length '\n') := by
  intro msgs
  induction msgs with
  | nil =>
    intro f acc nt k hf _ _ _ _
    obtain ⟨f', rfl⟩ : ∃ f', f = f' + 1 := ⟨f - 1, by omega⟩
    have hnone : findSplit tagOpenPat (List.replicate k '\n' ++ packConversation []) = none := by
      apply findSplit_none
      intro i
      have : packConversation [] = ([] : List Char) := by simp [packConversation]
      rw [this, List.append_nil]
      exact isPre_tagOpen_replicate k i
    simp only [parseLoopF, hnone]
    simp [packConversation]
  | cons m rest ih =>
    intro f acc nt k hf hroles hbodies hcount hsysacc
    obtain ⟨r, body⟩ := m
    obtain ⟨f', rfl⟩ : ∃ f', f = f' + 1 := ⟨f - 1, by omega⟩
    rw [packConversation_cons]
    rw [parseLoopF_pack_step f' acc nt k r body (packConversation rest)
      (hbodies (r, body) (List.mem_cons_self _ _))
      (hroles (r, body) (List.mem_cons_self _ _))
      (fun hr => hsysacc ⟨(r, body), List.mem_cons_self _ _, hr⟩)]
    have hcons : ('\n' :: packConversation rest) =
        List.replicate 1 '\n' ++ packConversation rest := by simp
    rw [hcons]
    have hih := ih f' (acc ++ [(⟨roleStr r, body⟩ : MessageE)])
      (nt ++ List.replicate k '\n') 1
      (by simp only [List.length_cons] at hf; omega)
      (fun x hx => hroles x (by simp [hx]))
      (fun x hx => hbodies x (by simp [hx]))
      (by
        have hc := hcount
        rw [List.filter_cons] at hc
        split at hc
        · rw [List.length_cons] at hc; omega
        · exact hc)
      (by
        intro hex
        rw [List.any_append]
        have hacc : acc.any (fun m => m.role = "system") = false := by
          apply hsysacc
          obtain ⟨x, hx, hxs⟩ := hex
          exact ⟨x, by simp [hx], hxs⟩
        have hrne : r ≠ Role.system := by
          intro hrs
          obtain ⟨x, hx, hxs⟩ := hex
          have hx1 : x ∈ rest.filter (fun m => decide (m.1 = Role.system)) := by
            rw [List.mem_filter]
            exact ⟨hx, by simp [hxs]⟩
          have hlen : 1 ≤ (rest.filter (fun m => decide (m.1 = Role.system))).length := by
            cases hfl : rest.filter (fun m => decide (m.1 = Role.system)) with
            | nil => rw [hfl] at hx1; cases hx1
            | cons a l => simp [hfl]
          have hc := hcount
          rw [List.filter_cons, if_pos (by simp [hrs]), List.length_cons] at hc
          omega
        rw [hacc]
        simp [roleStr_ne_system hrne])
    rw [hih]
    have hrep : List.replicate 1 '\n' ++ List.replicate rest.length '\n' =
        List.replicate (rest.length + 1) '\n' := by
      rw [← List.replicate_add, Nat.add_comm]
    rw [List.append_assoc (nt ++ List.replicate k '\n') (List.replicate 1 '\n')
      (List.replicate rest.length '\n'), hrep]
    simp [List.append_assoc]

theorem packMessage_length_pos (r : Role) (body : List Char) :
    1 ≤ (packMessage r body).length := by
  simp [packMessage]

theorem packConversation_length_ge (msgs : List (Role × List Char)) :
    msgs.length ≤ (packConversation msgs).length := by
  induction msgs with
  | nil => simp [packConversation]
  | cons m rest ih =>
    obtain ⟨r, body⟩ := m
    rw [packConversation_cons, List.length_append, List.length_cons]
    have := packMessage_length_pos r body
    omega

theorem trimL_replicate_newline (n : Nat) : trimL (List.replicate n '\n') = [] := by
  have hdrop : (List.replicate n '\n').dropWhile Char.isWhitespace = [] := by
    induction n with
    | zero => simp
    | succ k ih => simpa [List.replicate_succ, List.dropWhile_cons] using ih
  simp [trimL, hdrop]

/-- C1 counterexample: the pack/parse round-trip fails as stated.  A
conversation consisting of one `assistant-reasoning` message packs to
`<hnt-assistant-reasoning>hi</hnt-assistant-reasoning>\n`, but the sibling
parser treats `hnt-assistant-reasoning` as an unknown tag and drops it, so
re-parsing yields the empty message list instead of the original
(role, body) sequence. -/
theorem C1_pack_parse_counterexample :
    buildMessagesL (packConversation [(Role.assistantReasoning, "hi".toList)]) none =
      .ok [] ∧
    ([] : List MessageE) ≠
      [⟨roleStr Role.assistantReasoning, "hi".toList⟩] := by
  constructor
  · decide
  · decide

/-- C1 (amended): pack/parse round-trip for conversations whose roles are
among user, assistant and system (no `assistant-reasoning`), with at most
one system message, and whose bodies do not contain their own closing tag
`</hnt-{role}>`.  For such conversations, re-parsing the packed prompt with
`build_messages_from_stdin` (no `--system` argument) recovers exactly the
original (role, body) sequence, with bodies restored by unescaping. -/
theorem C1_pack_parse_roundtrip
    (msgs : List (Role × List Char))
    (hroles : ∀ m ∈ msgs, m.1 ≠ Role.assistantReasoning)
    (hbodies : ∀ m ∈ msgs, findSplit (closeTagL m.1) m.2 = none)
    (hsys : (msgs.filter (fun m => decide (m.1 = Role.system))).length ≤ 1) :
    buildMessagesL (packConversation msgs) none =
      .ok (msgs.map fun m => ⟨roleStr m.1, m.2⟩) := by
  have hmain := parseLoopF_packConversation msgs ((packConversation msgs).length + 1)
    [] [] 0
    (by have := packConversation_length_ge msgs; omega)
    hroles hbodies hsys (fun _ => rfl)
  simp only [List.replicate_zero, List.nil_append, List.append_nil] at hmain
  simp only [buildMessagesL]
  rw [hmain]
  simp [trimL_replicate_newline]

/-- Witness for C1: the amended round-trip at a concrete three-message
conversation containing an escaped `<` in a body. -/
theorem C1_pack_parse_roundtrip_witness :
    buildMessagesL (packConversation
      [(Role.system, "be helpful".toList), (Role.user, "hi <there>".toList),
       (Role.assistant, "ok".toList)]) none =
      .ok [⟨"system", "be helpful".toList⟩, ⟨"user", "hi <there>".toList⟩,
           ⟨"assistant", "ok".toList⟩] := by
  have h := C1_pack_parse_roundtrip
    [(Role.system, "be helpful".toList), (Role.user, "hi <there>".toList),
     (Role.assistant, "ok".toList)]
    (by decide) (by decide) (by decide)
  simpa using h

/-! ## Outside-text decomposition (claim C10)

`specSplitF` is the claim-side reading of the same scan: instead of
accumulating `non_tag_content` into one growing string, it returns the list
of outside-text segments in order, together with the tagged messages.  The
correspondence theorem below proves the parser's non-tag accumulator equals
the in-order concatenation of those segments. -/

def specSplitF : Nat → Bool → List Char →
    Except String (List MessageE × List (List Char))
  | 0, _, _ => .error "out of fuel"
  | f + 1, sysSeen, s =>
    match findSplit tagOpenPat s with
    | none => .ok ([], [s])
    | some (pre, suf) =>
      match findSplit ['>'] suf with
      | none => .error "Malformed hnt chat: Unclosed tag"
      | some (tagPre, tagSuf) =>
        let openTag := tagPre ++ ['>']
        let tagName := (openTag.drop 1).dropLast
        let rest := tagSuf.drop 1
        let closing := '<' :: '/' :: (tagName ++ ['>'])
        match findSplit closing rest with
        | none => .error "Malformed hnt chat: Missing closing tag"
        | some (content, closeSuf) =>
          let after := closeSuf.drop closing.length
          if tagName = "hnt-system".toList then
            if sysSeen then
              match specSplitF f sysSeen after with
              | .error e => .error e
              | .ok (ms, segs) => .ok (ms, pre :: segs)
            else
              match specSplitF f true after with
              | .error e => .error e
              | .ok (ms, segs) => .ok (⟨"system", unescapeL content⟩ :: ms, pre :: segs)
          else if tagName = "hnt-user".toList then
            match specSplitF f sysSeen after with
            | .error e => .error e
            | .ok (ms, segs) => .ok (⟨"user", unescapeL content⟩ :: ms, pre :: segs)
          else if tagName = "hnt-assistant".toList then
            match specSplitF f sysSeen after with
            | .error e => .error e
            | .ok (ms, segs) => .ok (⟨"assistant", unescapeL content⟩ :: ms, pre :: segs)
          else
            match specSplitF f sysSeen after with
            | .error e => .error e
            | .ok (ms, segs) => .ok (ms, pre :: segs)

theorem parseLoopF_specSplitF :
    ∀ (f : Nat) (acc : List MessageE) (nt : List Char) (s : List Char),
      parseLoopF f acc nt s =
        match specSplitF f (acc.any (fun m => m.role = "system")) s with
        | .error e => .error e
        | .ok (ms, segs) => .ok (acc ++ ms, nt ++ segs.flatten) := by
  intro f
  induction f with
  | zero => intro acc nt s; rfl
  | succ f ih =>
    intro acc nt s
    simp only [parseLoopF, specSplitF]
    cases h1 : findSplit tagOpenPat s with
    | none => simp
    | some q1 =>
      obtain ⟨pre, suf⟩ := q1
      dsimp only
      cases h2 : findSplit ['>'] suf with
      | none => rfl
      | some q2 =>
        obtain ⟨tagPre, tagSuf⟩ := q2
        dsimp only
        cases h3 : findSplit ('<' :: '/' :: ((((tagPre ++ ['>']).drop 1).dropLast) ++ ['>']))
            (tagSuf.drop 1) with
        | none => rfl
        | some q3 =>
          obtain ⟨content, closeSuf⟩ := q3
          dsimp only
          generalize closeSuf.drop
            ('<' :: '/' :: (((tagPre ++ ['>']).drop 1).dropLast ++ ['>'])).length = aft
          generalize ((tagPre ++ ['>']).drop 1).dropLast = tn
          by_cases hn1 : tn = "hnt-system".toList
          · rw [if_pos hn1, if_pos hn1]
            by_cases hseen : acc.any (fun m => m.role = "system") = true
            · rw [if_pos hseen, if_pos hseen]
              rw [ih, hseen]
              cases hrec : specSplitF f true aft with
              | error e => rfl
              | ok q =>
                obtain ⟨ms, segs⟩ := q
                dsimp only
                simp [List.append_assoc]
            · rw [if_neg hseen, if_neg hseen]
              rw [ih]
              have hany : ((acc ++ [(⟨"system", unescapeL content⟩ : MessageE)]).any
                  (fun m => m.role = "system")) = true := by
                rw [List.any_append]; simp
              rw [hany]
              cases hrec : specSplitF f true aft with
              | error e => rfl
              | ok q =>
                obtain ⟨ms, segs⟩ := q
                dsimp only
                simp [List.append_assoc]
          · rw [if_neg hn1, if_neg hn1]
            by_cases hn2 : tn = "hnt-user".toList
            · rw [if_pos hn2, if_pos hn2]
              rw [ih]
              have hany : ((acc ++ [(⟨"user", unescapeL content⟩ : MessageE)]).any
                  (fun m => m.role = "system")) = acc.any (fun m => m.role = "system") := by
                rw [List.any_append]; simp
              rw [hany]
              cases hrec : specSplitF f (acc.any (fun m => m.role = "system")) aft with
              | error e => rfl
              | ok q =>
                obtain ⟨ms, segs⟩ := q
                dsimp only
                simp [List.append_assoc]
            · rw [if_neg hn2, if_neg hn2]
              by_cases hn3 : tn = "hnt-assistant".toList
              · rw [if_pos hn3, if_pos hn3]
                rw [ih]
                have hany : ((acc ++ [(⟨"assistant", unescapeL content⟩ : MessageE)]).any
                    (fun m => m.role = "system")) = acc.any (fun m => m.role = "system") := by
                  rw [List.any_append]; simp
                rw [hany]
                cases hrec : specSplitF f (acc.any (fun m => m.role = "system")) aft with
                | error e => rfl
                | ok q =>
                  obtain ⟨ms, segs⟩ := q
                  dsimp only
                  simp [List.append_assoc]
              · rw [if_neg hn3, if_neg hn3]
                rw [ih]
                cases hrec : specSplitF f (acc.any (fun m => m.role = "system")) aft with
                | error e => rfl
                | ok q =>
                  obtain ⟨ms, segs⟩ := q
                  dsimp only
                  simp [List.append_assoc]

/-- C10 (confirmed): whenever the role-block scan of an input succeeds, the
result of `build_messages_from_stdin` (no system argument) is exactly the
tagged messages followed by at most one final user-role message; that final
message exists iff the in-order concatenation of all text segments lying
outside well-formed tag pairs is non-empty after trimming, and its content
is that concatenation, trimmed and unescaped. -/
theorem C10_outside_text_trailing_user
    (s : List Char) (ms : List MessageE) (segs : List (List Char))
    (h : specSplitF (s.length + 1) false s = .ok (ms, segs)) :
    buildMessagesL s none =
      .ok (ms ++ (if trimL segs.flatten = [] then []
        else [⟨"user", unescapeL (trimL segs.flatten)⟩])) := by
  simp only [buildMessagesL]
  have hcorr := parseLoopF_specSplitF (s.length + 1) [] [] s
  simp only [List.any_nil] at hcorr
  rw [hcorr, h]
  by_cases ht : trimL segs.flatten = []
  · simp [ht]
  · simp [ht]

/-- Witness for C10: prose before and after a single user tag becomes one
trailing user message holding the concatenated, trimmed outside text. -/
theorem C10_outside_text_trailing_user_witness :
    buildMessagesL " pre <hnt-user>x</hnt-user> post ".toList none =
      .ok [⟨"user", "x".toList⟩, ⟨"user", "pre  post".toList⟩] := by
  have h := C10_outside_text_trailing_user " pre <hnt-user>x</hnt-user> post ".toList
    [⟨"user", "x".toList⟩] [" pre ".toList, " post ".toList] (by decide)
  simpa using h

/-! ## Shell-block extraction (src/hnt-agent/src/main.rs, claim C3)

The agent runs `Regex::new(r"(?s)<hnt-shell>(.*?)</hnt-shell>")` and takes
`captures_iter(..).last()`, then trims the capture.  For this regex,
`captures_iter` enumerates non-overlapping matches left to right; each match
starts at the next occurrence of `<hnt-shell>` and its lazy capture extends
to the first following `</hnt-shell>`.  `shellMatchesF` computes that match
sequence directly (one fuel unit per match; the remaining input shrinks each
iteration). -/

def shellOpen : List Char := "<hnt-shell>".toList

def shellClose : List Char := "</hnt-shell>".toList

def shellMatchesF : Nat → List Char → List (List Char)
  | 0, _ => []
  | f + 1, s =>
    match findSplit shellOpen s with
    | none => []
    | some (_, suf) =>
      match findSplit shellClose (suf.drop shellOpen.length) with
      | none => []
      | some (cap, csuf) => cap :: shellMatchesF f (csuf.drop shellClose.length)

def shellMatches (s : List Char) : List (List Char) := shellMatchesF (s.length + 1) s

/-- Embedding of the agent's command selection: the inner capture of the
last match, trimmed (`captures_iter(..).last()` + `trim`). -/
def extractLastShellCommand (s : List Char) : Option (List Char) :=
  (shellMatches s).getLast?.map trimL

theorem shellMatchesF_block (f : Nat) (a c rest2 : List Char)
    (hopen : findSplit shellOpen a = none)
    (hclose : findSplit shellClose c = none) :
    shellMatchesF (f + 1) (a ++ (shellOpen ++ (c ++ (shellClose ++ rest2)))) =
      c :: shellMatchesF f rest2 := by
  have h1 : findSplit shellOpen (a ++ (shellOpen ++ (c ++ (shellClose ++ rest2)))) =
      some (a, shellOpen ++ (c ++ (shellClose ++ rest2))) := by
    apply findSplit_boundary (c := '<')
    · decide
    · decide
    · exact isPre_drop_of_findSplit_none hopen
    · exact isPre_refl_append _ _
  have h2 : findSplit shellClose (c ++ (shellClose ++ rest2)) =
      some (c, shellClose ++ rest2) := by
    apply findSplit_boundary (c := '<')
    · decide
    · decide
    · exact isPre_drop_of_findSplit_none hclose
    · exact isPre_refl_append _ _
  simp only [shellMatchesF, h1, List.drop_left, h2]

theorem shellMatchesF_none (f : Nat) (t : List Char)
    (hopen : findSplit shellOpen t = none) :
    shellMatchesF f t = [] := by
  cases f with
  | zero => rfl
  | succ f' => simp only [shellMatchesF, hopen]

/-- C3 (confirmed): among all `<hnt-shell>…</hnt-shell>` blocks of the
assistant content, the agent selects the inner capture of the LAST match
(trimmed); in particular for
`plan...<hnt-shell>ls</hnt-shell> afterthought <hnt-shell>pwd</hnt-shell> done`
the executed command is `pwd`, not `ls`. -/
theorem C3_last_shell_block_wins :
    (∀ p g t c1 c2 : List Char,
      findSplit shellOpen p = none →
      findSplit shellClose c1 = none →
      findSplit shellOpen g = none →
      findSplit shellClose c2 = none →
      findSplit shellOpen t = none →
      extractLastShellCommand
        (p ++ (shellOpen ++ (c1 ++ (shellClose ++
          (g ++ (shellOpen ++ (c2 ++ (shellClose ++ t)))))))) = some (trimL c2)) ∧
    extractLastShellCommand
      "plan...<hnt-shell>ls</hnt-shell> afterthought <hnt-shell>pwd</hnt-shell> done".toList =
      some "pwd".toList ∧
    "pwd".toList ≠ "ls".toList := by
  refine ⟨?_, by decide, by decide⟩
  intro p g t c1 c2 h1 h2 h3 h4 h5
  unfold extractLastShellCommand shellMatches
  have hlo : shellOpen.length = 11 := rfl
  have hlc : shellClose.length = 12 := rfl
  obtain ⟨k, hk⟩ : ∃ k,
      (p ++ (shellOpen ++ (c1 ++ (shellClose ++
        (g ++ (shellOpen ++ (c2 ++ (shellClose ++ t)))))))).length + 1 = k + 3 := by
    refine ⟨(p ++ (shellOpen ++ (c1 ++ (shellClose ++
      (g ++ (shellOpen ++ (c2 ++ (shellClose ++ t)))))))).length - 2, ?_⟩
    simp only [List.length_append, hlo, hlc]
    omega
  rw [hk]
  rw [show k + 3 = (k + 2) + 1 from rfl,
    shellMatchesF_block (k + 2) p c1 _ h1 h2,
    show k + 2 = (k + 1) + 1 from rfl,
    shellMatchesF_block (k + 1) g c2 _ h3 h4,
    shellMatchesF_none (k + 1) t h5]
  simp

/-- Witness for C3: the universal last-match selection applied to the
spec's concrete example content. -/
theorem C3_last_shell_block_wins_witness :
    extractLastShellCommand
      ("plan...".toList ++ (shellOpen ++ ("ls".toList ++ (shellClose ++
        (" afterthought ".toList ++ (shellOpen ++ ("pwd".toList ++ (shellClose ++
          " done".toList)))))))) = some (trimL "pwd".toList) :=
  C3_last_shell_block_wins.1 "plan...".toList " afterthought ".toList " done".toList
    "ls".toList "pwd".toList (by decide) (by decide) (by decide) (by decide) (by decide)

/-! ## Backtick escaping (src/hnt-agent/src/main.rs, claim C4)

Unless `--no-escape-backticks` is set, the agent applies
`Regex::new(r"(^|[^\\])`").replace_all(cmd, r"$1\`")`.  `replace_all` scans
left to right over non-overlapping matches: at the string start a lone
backtick matches via `^`; elsewhere a match consumes a non-backslash
character plus the following backtick.  `escapeBackticksGo` models the
scan after position 0; `escapeBackticks` adds the `^` case. -/

/-- The backtick character (written via its code point). -/
def btick : Char := Char.ofNat 96

/-- The backslash character. -/
def bslash : Char := '\\'

def escapeBackticksGo : List Char → List Char
  | [] => []
  | [c] => [c]
  | c :: d :: t =>
    if c ≠ bslash ∧ d = btick then c :: bslash :: d :: escapeBackticksGo t
    else c :: escapeBackticksGo (d :: t)

/-- Embedding of the agent's backtick-escaping transformation. -/
def escapeBackticks (s : List Char) : List Char :=
  match s with
  | c :: rest =>
    if c = btick then bslash :: btick :: escapeBackticksGo rest
    else escapeBackticksGo (c :: rest)
  | [] => []

/-- Claim-side transformation, written from the spec's words: every backtick
not preceded by a backslash becomes backslash-backtick; backticks already
preceded by a backslash are unchanged.  `prevBS` records whether the
previous character is a backslash. -/
def claimBE : Bool → List Char → List Char
  | _, [] => []
  | prevBS, c :: t =>
    if c = btick ∧ prevBS = false then bslash :: btick :: claimBE (decide (c = bslash)) t
    else c :: claimBE (decide (c = bslash)) t

def claimBacktickEscape (s : List Char) : List Char := claimBE false s

/-- No two adjacent backticks. -/
def noDoubleBacktick : List Char → Bool
  | [] => true
  | [_] => true
  | c :: d :: t => !(c = btick && d = btick) && noDoubleBacktick (d :: t)

theorem btick_ne_bslash : btick ≠ bslash := by decide

theorem escapeBackticksGo_claimBE :
    ∀ n (s : List Char), s.length ≤ n → noDoubleBacktick s = true →
      s.head? ≠ some btick → ∀ b, escapeBackticksGo s = claimBE b s := by
  intro n
  induction n with
  | zero =>
    intro s hlen _ _ b
    have : s = [] := List.length_eq_zero.mp (by omega)
    subst this
    rfl
  | succ n ih =>
    intro s hlen hnd hhead b
    match s with
    | [] => rfl
    | [c] =>
      have hc : c ≠ btick := by
        intro hx; exact hhead (by simp [hx])
      show [c] = claimBE b [c]
      rw [claimBE, if_neg (by rintro ⟨hx, _⟩; exact hc hx)]
      rfl
    | c :: d :: t =>
      have hc : c ≠ btick := by
        intro hx; exact hhead (by simp [hx])
      have hnd' : noDoubleBacktick (d :: t) = true := by
        rw [noDoubleBacktick, Bool.and_eq_true] at hnd
        exact hnd.2
      by_cases hm : c ≠ bslash ∧ d = btick
      · -- a match: the backtick `d` is escaped, scanning resumes after it
        rw [escapeBackticksGo, if_pos hm]
        rw [claimBE, if_neg (by rintro ⟨hx, _⟩; exact hc hx)]
        rw [claimBE, if_pos ⟨hm.2, by simp [decide_eq_false_iff_not.mpr hm.1]⟩]
        have ht : t.head? ≠ some btick := by
          intro hx
          cases t with
          | nil => simp at hx
          | cons e t' =>
            simp at hx
            rw [noDoubleBacktick, Bool.and_eq_true] at hnd'
            have := hnd'.1
            rw [hm.2, hx] at this
            simp at this
        have hndt : noDoubleBacktick t = true := by
          cases t with
          | nil => rfl
          | cons e t' =>
            rw [noDoubleBacktick, Bool.and_eq_true] at hnd'
            exact hnd'.2
        rw [ih t (by simp at hlen; omega) hndt ht (decide (d = bslash))]
        rw [hm.2]
      · -- no match at this position: move one character forward
        rw [escapeBackticksGo, if_neg hm]
        rw [claimBE, if_neg (by rintro ⟨hx, _⟩; exact hc hx)]
        by_cases hd : d = btick
        · -- then ¬(c ≠ bslash), i.e. c is a backslash: claim side skips too
          have hcb : c = bslash := by
            by_contra hx
            exact hm ⟨hx, hd⟩
          have hdt : t.head? ≠ some btick := by
            intro hx
            cases t with
            | nil => simp at hx
            | cons e t' =>
              simp at hx
              rw [noDoubleBacktick, Bool.and_eq_true] at hnd'
              have := hnd'.1
              rw [hd, hx] at this
              simp at this
          have hndt : noDoubleBacktick t = true := by
            cases t with
            | nil => rfl
            | cons e t' =>
              rw [noDoubleBacktick, Bool.and_eq_true] at hnd'
              exact hnd'.2
          rw [claimBE, if_neg (by
            rintro ⟨_, hpb⟩
            rw [hcb] at hpb
            simp at hpb)]
          cases t with
          | nil => rfl
          | cons e t' =>
            rw [escapeBackticksGo, if_neg (by
              rintro ⟨_, hx⟩
              rw [noDoubleBacktick, Bool.and_eq_true] at hnd'
              have := hnd'.1
              rw [hd, hx] at this
              simp at this)]
            congr 1
            congr 1
            exact ih (e :: t') (by simp at hlen ⊢; omega) hndt hdt _
        · rw [ih (d :: t) (by simp at hlen ⊢; omega) hnd' (by simp [hd]) (decide (c = bslash))]

theorem claimBE_false_of_head_ne {c : Char} {t : List Char} (h : c ≠ btick) (b : Bool) :
    claimBE b (c :: t) = c :: claimBE (decide (c = bslash)) t := by
  rw [claimBE, if_neg (by rintro ⟨hx, _⟩; exact h hx)]

/-- C4 counterexample: the non-overlapping replacement misses a backtick that
immediately follows an escaped backtick.  On the two-character command
consisting of two backticks, the code produces backslash-backtick-backtick,
while the claim mandates that both backticks (neither preceded by a
backslash in the input) be escaped. -/
theorem C4_backtick_counterexample :
    escapeBackticks [btick, btick] = [bslash, btick, btick] ∧
    claimBacktickEscape [btick, btick] = [bslash, btick, bslash, btick] ∧
    escapeBackticks [btick, btick] ≠ claimBacktickEscape [btick, btick] := by
  refine ⟨by decide, by decide, by decide⟩

/-- C4 (amended): for every command containing no two consecutive backticks,
the transformation escapes exactly the backticks not preceded by a
backslash and leaves backticks preceded by a backslash unchanged (it equals
the claim-side transformation).  In a run of consecutive backticks the
non-overlapping scan escapes only alternate backticks. -/
theorem C4_backtick_escape (s : List Char) (h : noDoubleBacktick s = true) :
    escapeBackticks s = claimBacktickEscape s := by
  match s with
  | [] => rfl
  | c :: t =>
    by_cases hc : c = btick
    · subst hc
      show escapeBackticks (btick :: t) = claimBacktickEscape (btick :: t)
      rw [escapeBackticks]
      rw [if_pos rfl]
      rw [claimBacktickEscape, claimBE, if_pos ⟨rfl, rfl⟩]
      have hnd' : noDoubleBacktick t = true := by
        cases t with
        | nil => rfl
        | cons d t' =>
          rw [noDoubleBacktick, Bool.and_eq_true] at h
          exact h.2
      have hht : t.head? ≠ some btick := by
        intro hx
        cases t with
        | nil => simp at hx
        | cons d t' =>
          simp at hx
          rw [noDoubleBacktick, Bool.and_eq_true] at h
          have := h.1
          rw [hx] at this
          simp at this
      rw [escapeBackticksGo_claimBE t.length t (le_refl _) hnd' hht]
    · rw [escapeBackticks, if_neg hc]
      rw [claimBacktickEscape]
      exact escapeBackticksGo_claimBE (c :: t).length (c :: t) (le_refl _) h
        (by simp [hc]) false

/-- Witness for C4: the amended theorem at the spec's scenario command
`echo \`date\`` (backticks not adjacent). -/
theorem C4_backtick_escape_witness :
    escapeBackticks ("echo ".toList ++ [btick] ++ "date".toList ++ [btick]) =
      claimBacktickEscape ("echo ".toList ++ [btick] ++ "date".toList ++ [btick]) :=
  C4_backtick_escape ("echo ".toList ++ [btick] ++ "date".toList ++ [btick]) (by decide)

/-! ## headlesh command payload (src/src/headlesh/src/lib.rs, claim C2)

`Session::exec_captured` writes the out, err and status FIFO paths, each
followed by a newline, and then the raw script body, all in one write to the
command FIFO.  `run_daemon` reads the whole payload and parses it with
`payload_str.lines()`: the first three lines (default `/dev/null`) are the
FIFO paths and `lines.collect().join("\n")` is the command handed to the
shell.  `rustLines` models Rust `str::lines` (split at `\n`, one `\r`
stripped before each split point, final line ending optional). -/

/-- Strip one trailing carriage return (the `\r` of a `\r\n` line ending). -/
def stripCRend (l : List Char) : List Char :=
  if l.getLast? = some '\r' then l.dropLast else l

def linesAux : List Char → List Char → List (List Char)
  | acc, [] => if acc = [] then [] else [acc.reverse]
  | acc, c :: t =>
    if c = '\n' then stripCRend acc.reverse :: linesAux [] t
    else linesAux (c :: acc) t

/-- Model of Rust `str::lines`. -/
def rustLines (s : List Char) : List (List Char) := linesAux [] s

/-- Rust `Vec::join("\n")`. -/
def joinNl : List (List Char) → List Char
  | [] => []
  | [l] => l
  | l :: ls => l ++ '\n' :: joinNl ls

/-- What remains of the script body after the daemon's lines/join round trip:
one final newline (if present) is dropped.  (`\r` normalization additionally
applies to bodies containing carriage returns; the theorems below assume
`\r`-free bodies.) -/
def chompNl (s : List Char) : List Char :=
  if s.getLast? = some '\n' then s.dropLast else s

/-- Payload built by `exec_captured` / `exec`: three FIFO-path lines followed
by the script body. -/
def buildPayload (outP errP stP s : List Char) : List Char :=
  outP ++ '\n' :: (errP ++ '\n' :: (stP ++ '\n' :: s))

/-- The daemon's parse of one payload: first three lines as FIFO paths
(default `/dev/null`), remaining lines re-joined as the script body. -/
def parsePayload (p : List Char) : List Char × List Char × List Char × List Char :=
  let ls := rustLines p
  (ls.getD 0 "/dev/null".toList, ls.getD 1 "/dev/null".toList,
   ls.getD 2 "/dev/null".toList, joinNl (ls.drop 3))

theorem stripCRend_of_no_cr {l : List Char} (h : '\r' ∉ l) : stripCRend l = l := by
  rw [stripCRend, if_neg]
  intro hx
  exact h (by
    have := List.mem_of_mem_getLast? hx
    exact this)

theorem linesAux_append_line :
    ∀ (h acc t : List Char), '\n' ∉ h →
      linesAux acc (h ++ '\n' :: t) = stripCRend (acc.reverse ++ h) :: linesAux [] t := by
  intro h
  induction h with
  | nil =>
    intro acc t _
    simp [linesAux]
  | cons c h' ih =>
    intro acc t hn
    have hc : c ≠ '\n' := by intro hx; exact hn (by simp [hx])
    rw [List.cons_append, linesAux, if_neg hc, ih (c :: acc) t (fun hx => hn (by simp [hx]))]
    rw [List.reverse_cons, List.append_assoc]
    rfl

theorem rustLines_buildPayload (o e st s : List Char)
    (ho1 : '\n' ∉ o) (ho2 : '\r' ∉ o) (he1 : '\n' ∉ e) (he2 : '\r' ∉ e)
    (hst1 : '\n' ∉ st) (hst2 : '\r' ∉ st) :
    rustLines (buildPayload o e st s) = o :: e :: st :: rustLines s := by
  rw [buildPayload, rustLines, linesAux_append_line o [] _ ho1,
    linesAux_append_line e [] _ he1, linesAux_append_line st [] _ hst1]
  rw [List.reverse_nil, List.nil_append, List.nil_append, List.nil_append,
    stripCRend_of_no_cr ho2, stripCRend_of_no_cr he2, stripCRend_of_no_cr hst2]
  rfl

theorem linesAux_ne_nil : ∀ (t acc : List Char), acc ≠ [] ∨ t ≠ [] → linesAux acc t ≠ [] := by
  intro t
  induction t with
  | nil =>
    intro acc h
    rcases h with h | h
    · simp [linesAux, h]
    · cases h rfl
  | cons c t' ih =>
    intro acc _
    by_cases hc : c = '\n'
    · subst hc; simp [linesAux]
    · rw [linesAux, if_neg hc]
      exact ih (c :: acc) (Or.inl (by simp))

theorem chompNl_append_single (a : List Char) : chompNl (a ++ ['\n']) = a := by
  rw [chompNl, if_pos (List.getLast?_concat a), List.dropLast_concat]

theorem chompNl_append_cons (a t : List Char) (ht : t ≠ []) :
    chompNl (a ++ '\n' :: t) = a ++ '\n' :: chompNl t := by
  rw [chompNl, chompNl]
  have hg : (a ++ '\n' :: t).getLast? = t.getLast? := by
    rw [List.getLast?_append_of_ne_nil a (by simp)]
    rw [List.getLast?_cons]
    cases t with
    | nil => cases ht rfl
    | cons x u => simp [List.getLast?_cons]
  rw [hg]
  split
  · rw [List.dropLast_append_cons]
    congr 1
    rw [List.dropLast_cons_of_ne_nil ht]
  · rfl

theorem joinNl_cons_of_ne_nil (l : List Char) {ls : List (List Char)} (h : ls ≠ []) :
    joinNl (l :: ls) = l ++ '\n' :: joinNl ls := by
  cases ls with
  | nil => cases h rfl
  | cons x u => rfl

theorem joinNl_linesAux :
    ∀ (s acc : List Char), '\r' ∉ s → '\r' ∉ acc → '\n' ∉ acc →
      joinNl (linesAux acc s) = chompNl (acc.reverse ++ s) := by
  intro s
  induction s with
  | nil =>
    intro acc _ hacc haccn
    by_cases h : acc = []
    · subst h; rfl
    · rw [linesAux, if_neg h, List.append_nil]
      show acc.reverse = chompNl acc.reverse
      rw [chompNl, if_neg]
      intro hx
      have := List.mem_of_mem_getLast? hx
      rw [List.mem_reverse] at this
      exact haccn this
  | cons c t ih =>
    intro acc hs hacc haccn
    by_cases hc : c = '\n'
    · subst hc
      rw [linesAux, if_pos rfl,
        stripCRend_of_no_cr (by intro hx; exact hacc (List.mem_reverse.mp hx))]
      by_cases ht : t = []
      · subst ht
        show joinNl [acc.reverse] = chompNl (acc.reverse ++ ['\n'])
        rw [chompNl_append_single]
        rfl
      · rw [joinNl_cons_of_ne_nil _ (linesAux_ne_nil t [] (Or.inr ht)),
          ih [] (fun hx => hs (by simp [hx])) (by simp) (by simp),
          chompNl_append_cons _ _ ht]
        rfl
    · rw [linesAux, if_neg hc,
        ih (c :: acc) (fun hx => hs (by simp [hx]))
          (by
            intro hx
            rcases List.mem_cons.mp hx with hx | hx
            · exact hs (by simp [hx.symm])
            · exact hacc hx)
          (by
            intro hx
            rcases List.mem_cons.mp hx with hx | hx
            · exact hc hx.symm
            · exact haccn hx)]
      rw [List.reverse_cons, List.append_assoc]
      rfl

/-- C2 counterexample: the payload round trip is not the identity on script
bodies with a trailing newline.  For the body `"echo hi\n"` the daemon's
parse recovers the three FIFO paths but hands the shell `"echo hi"`: the
trailing newline is dropped by `lines()`/`join("\n")`. -/
theorem C2_payload_counterexample :
    parsePayload (buildPayload "/tmp/o".toList "/tmp/e".toList "/tmp/s".toList
        "echo hi\n".toList) =
      ("/tmp/o".toList, "/tmp/e".toList, "/tmp/s".toList, "echo hi".toList) ∧
    "echo hi".toList ≠ "echo hi\n".toList := by
  refine ⟨by decide, by decide⟩

/-- C2 (amended): for FIFO paths free of newlines and carriage returns and a
script body free of carriage returns, the daemon's parse of the payload
built by `exec_captured` yields exactly the three FIFO paths sent, and a
script body equal to the one sent except that a single trailing newline
(when present) is removed.  Embedded newlines are preserved. -/
theorem C2_payload_roundtrip (o e st s : List Char)
    (ho1 : '\n' ∉ o) (ho2 : '\r' ∉ o) (he1 : '\n' ∉ e) (he2 : '\r' ∉ e)
    (hst1 : '\n' ∉ st) (hst2 : '\r' ∉ st) (hs : '\r' ∉ s) :
    parsePayload (buildPayload o e st s) = (o, e, st, chompNl s) := by
  rw [parsePayload]
  rw [rustLines_buildPayload o e st s ho1 ho2 he1 he2 hst1 hst2]
  have hjoin : joinNl (rustLines s) = chompNl s := by
    have := joinNl_linesAux s [] hs (by simp) (by simp)
    simpa [rustLines] using this
  simp [hjoin]

/-- Witness for C2: a body with an embedded newline and no trailing newline
round-trips exactly (its `chompNl` is itself). -/
theorem C2_payload_roundtrip_witness :
    parsePayload (buildPayload "/tmp/o".toList "/tmp/e".toList "/tmp/s".toList
        "cd /tmp\necho $PWD".toList) =
      ("/tmp/o".toList, "/tmp/e".toList, "/tmp/s".toList,
        chompNl "cd /tmp\necho $PWD".toList) :=
  C2_payload_roundtrip "/tmp/o".toList "/tmp/e".toList "/tmp/s".toList
    "cd /tmp\necho $PWD".toList (by decide) (by decide) (by decide) (by decide)
    (by decide) (by decide) (by decide)

/-! ## Edit applier (src/hnt-apply/src/lib.rs, claims C6 and C7)

`apply_change_block` is embedded as a pure transformation of a small
filesystem model: an association list from (resolved) paths to file
contents.  Path resolution (common root joining and the suffix fallback)
is filesystem-dependent and abstracted to the identity on
`relative_path`; every stored entry is a regular file (the `is_file`
failure branch for directories is not modelled).  Line splitting uses the
`rustLines` model of `str::lines` and windows are compared for exact
equality, as in the source. -/

structure BlockM where
  relativePath : String
  target : List (List Char)
  repl : List (List Char)
deriving DecidableEq

abbrev FsM : Type := List (String × List Char)

def lookupFs : FsM → String → Option (List Char)
  | [], _ => none
  | (k, v) :: rest, p => if k = p then some v else lookupFs rest p

def updateFs : FsM → String → List Char → FsM
  | [], _, _ => []
  | (k, v) :: rest, p, c => if k = p then (k, c) :: rest else (k, v) :: updateFs rest p c

/-- Indices `i` such that the window of `ls` of `t.length` lines starting at
`i` equals `t` (Rust `windows(n).enumerate().filter(..)`). -/
def matchPositions (t ls : List (List Char)) : List Nat :=
  (List.range (ls.length + 1 - t.length)).filter
    (fun i => (ls.drop i).take t.length = t)

/-- Join lines with `\n` and add a trailing newline when non-empty
(`new_lines.join("\n")` followed by `push('\n')`). -/
def mkFileContent (ls : List (List Char)) : List Char :=
  if ls = [] then [] else joinNl ls ++ ['\n']

/-- Embedding of `apply_change_block` as a filesystem transformation.
Fatal errors (`bail!`) become `Except.error`; printed per-block `FAILED`
status lines that `return Ok(())` keep the filesystem unchanged. -/
def applyChangeBlockM (disallowCreating : Bool) (fs : FsM) (b : BlockM) :
    Except String FsM :=
  match lookupFs fs b.relativePath with
  | some content =>
    if b.target = [] then
      if content = [] then
        .ok (updateFs fs b.relativePath (mkFileContent b.repl))
      else
        .error ("FAILED: empty target for existing, non-empty file: " ++ b.relativePath)
    else
      match matchPositions b.target (rustLines content) with
      | [] => .error ("FAILED: target not found in " ++ b.relativePath)
      | [pos] =>
        .ok (updateFs fs b.relativePath
          (mkFileContent ((rustLines content).take pos ++ b.repl ++
            (rustLines content).drop (pos + b.target.length))))
      | ps => .error ("FAILED: target found " ++ toString ps.length ++
          " times in " ++ b.relativePath)
  | none =>
    if disallowCreating then .ok fs
    else if b.target ≠ [] then .ok fs
    else .ok (fs ++ [(b.relativePath, mkFileContent b.repl)])

/-- Embedding of the `apply_changes` loop: blocks are applied in order and a
fatal error stops all further application, leaving the filesystem as it was
at the failing block. -/
def applyChanges (dc : Bool) : FsM → List BlockM → FsM × Option String
  | fs, [] => (fs, none)
  | fs, b :: rest =>
    match applyChangeBlockM dc fs b with
    | .ok fs' => applyChanges dc fs' rest
    | .error e => (fs, some e)

/-- C6 (confirmed): for a change block whose non-empty target occurs zero
times, or more than once, as a contiguous window of the target file's
lines, application returns the fatal error `target not found` /
`target found N times`, the file's content is unchanged, and no further
blocks are applied (the loop stops at the failing block). -/
theorem C6_uniqueness_atomicity (dc : Bool) (fs : FsM) (b : BlockM)
    (rest : List BlockM) (content : List Char)
    (hfile : lookupFs fs b.relativePath = some content)
    (htne : b.target ≠ []) :
    (matchPositions b.target (rustLines content) = [] →
      applyChanges dc fs (b :: rest) =
        (fs, some ("FAILED: target not found in " ++ b.relativePath))) ∧
    (2 ≤ (matchPositions b.target (rustLines content)).length →
      applyChanges dc fs (b :: rest) =
        (fs, some ("FAILED: target found " ++
          toString (matchPositions b.target (rustLines content)).length ++
          " times in " ++ b.relativePath))) := by
  constructor
  · intro hzero
    simp only [applyChanges, applyChangeBlockM, hfile, if_neg htne, hzero]
  · intro hmulti
    cases hp : matchPositions b.target (rustLines content) with
    | nil => rw [hp] at hmulti; simp at hmulti
    | cons x xs =>
      cases xs with
      | nil => rw [hp] at hmulti; simp at hmulti
      | cons y ys =>
        simp only [applyChanges, applyChangeBlockM, hfile, if_neg htne, hp]

/-- Witness for C6: duplicate target (spec scenario: file `A\nA\n`, target
`A`, error `target found 2 times`) and missing target, each leaving the
file unchanged. -/
theorem C6_uniqueness_atomicity_witness :
    applyChanges false [("f.txt", "A\nA\n".toList)]
        [⟨"f.txt", ["A".toList], ["X".toList]⟩] =
      ([("f.txt", "A\nA\n".toList)], some "FAILED: target found 2 times in f.txt") ∧
    applyChanges false [("f.txt", "A\n".toList)]
        [⟨"f.txt", ["B".toList], ["X".toList]⟩] =
      ([("f.txt", "A\n".toList)], some "FAILED: target not found in f.txt") := by
  constructor
  · have h := (C6_uniqueness_atomicity false [("f.txt", "A\nA\n".toList)]
      ⟨"f.txt", ["A".toList], ["X".toList]⟩ [] "A\nA\n".toList
      (by decide) (by decide)).2 (by decide)
    exact h.trans (by decide)
  · have h := (C6_uniqueness_atomicity false [("f.txt", "A\n".toList)]
      ⟨"f.txt", ["B".toList], ["X".toList]⟩ [] "A\n".toList
      (by decide) (by decide)).1 (by decide)
    exact h.trans (by decide)

/-- C7 counterexample: edit application is not idempotent for every target
and replace sequence.  On the file `A\n`, the block with unique target line
`A` and replacement lines `B, A` succeeds and yields `B\nA\n`; applying the
same block a second time succeeds again and yields `B\nB\nA\n` — the file
changed beyond a trailing newline. -/
theorem C7_idempotence_counterexample :
    applyChanges false [("f.txt", "A\n".toList)]
        [⟨"f.txt", ["A".toList], ["B".toList, "A".toList]⟩] =
      ([("f.txt", "B\nA\n".toList)], none) ∧
    applyChanges false [("f.txt", "A\n".toList)]
        [⟨"f.txt", ["A".toList], ["B".toList, "A".toList]⟩,
         ⟨"f.txt", ["A".toList], ["B".toList, "A".toList]⟩] =
      ([("f.txt", "B\nB\nA\n".toList)], none) ∧
    "B\nA\n".toList ≠ "B\nB\nA\n".toList := by
  refine ⟨by decide, by decide, by decide⟩

/-- C7 (amended): after a successful first application, re-applying the same
block leaves the file contents unchanged whenever the target does not occur
exactly once in the updated file: the second application then returns a
fatal error and the two-application run ends in exactly the
one-application state.  (When the replacement reintroduces the target
exactly once, the second application succeeds and may change the file, as
the counterexample shows.) -/
theorem C7_second_application (dc : Bool) (fs fs1 : FsM) (b : BlockM) (c1 : List Char)
    (h1 : applyChangeBlockM dc fs b = .ok fs1)
    (hc : lookupFs fs1 b.relativePath = some c1)
    (ht : b.target ≠ [])
    (hn : (matchPositions b.target (rustLines c1)).length ≠ 1) :
    ∃ e, applyChangeBlockM dc fs1 b = .error e ∧
      applyChanges dc fs [b, b] = (fs1, some e) := by
  have hstep : ∀ e, applyChangeBlockM dc fs1 b = .error e →
      applyChanges dc fs [b, b] = (fs1, some e) := by
    intro e he
    simp only [applyChanges, h1, he]
  cases hp : matchPositions b.target (rustLines c1) with
  | nil =>
    refine ⟨"FAILED: target not found in " ++ b.relativePath, ?_, ?_⟩
    · simp only [applyChangeBlockM, hc, if_neg ht, hp]
    · exact hstep _ (by simp only [applyChangeBlockM, hc, if_neg ht, hp])
  | cons x xs =>
    cases xs with
    | nil => rw [hp] at hn; simp at hn
    | cons y ys =>
      refine ⟨"FAILED: target found " ++ toString (x :: y :: ys).length ++
        " times in " ++ b.relativePath, ?_, ?_⟩
      · simp only [applyChangeBlockM, hc, if_neg ht, hp]
      · exact hstep _ (by simp only [applyChangeBlockM, hc, if_neg ht, hp])

/-- Witness for C7: the amended statement at a replacement that eliminates
the target; the second application fails with `target not found` and the
file keeps the contents produced by the first application. -/
theorem C7_second_application_witness :
    applyChanges false [("f.txt", "A\n".toList)]
        [⟨"f.txt", ["A".toList], ["B".toList]⟩,
         ⟨"f.txt", ["A".toList], ["B".toList]⟩] =
      ([("f.txt", "B\n".toList)], some "FAILED: target not found in f.txt") := by
  obtain ⟨e, h1, h2⟩ := C7_second_application false [("f.txt", "A\n".toList)]
    [("f.txt", "B\n".toList)] ⟨"f.txt", ["A".toList], ["B".toList]⟩ "B\n".toList
    (by decide) (by decide) (by decide) (by decide)
  have hconc : applyChangeBlockM false [("f.txt", "B\n".toList)]
      ⟨"f.txt", ["A".toList], ["B".toList]⟩ =
      .error "FAILED: target not found in f.txt" := by decide
  rw [hconc] at h1
  injection h1 with he
  subst he
  exact h2

/-! ## Shell-result message composition (src/hnt-agent/src/main.rs, claim C5)

After `exec_captured` returns, the agent builds `parts`: a `<stdout>`
section if the trimmed stdout is non-empty, a `<stderr>` section if the
trimmed stderr is non-empty, and `<exit_code>N</exit_code>` if
`exit_status.code().unwrap_or(1)` is nonzero; the parts are joined with
newlines inside `<hnt-shell-results>` and written as a user message.  A
nonzero exit code flows into this message rather than an error path. -/

/-- Rust `str::trim` on a `String`, via the executable character-list model
(whitespace at both ends removed). -/
def trimS (s : String) : String := ⟨trimL s.data⟩

def stdoutSection (o : String) : String := "<stdout>\n" ++ trimS o ++ "\n</stdout>"

def stderrSection (e : String) : String := "<stderr>\n" ++ trimS e ++ "\n</stderr>"

def exitSection (code : Int) : String := "<exit_code>" ++ toString code ++ "</exit_code>"

def resultParts (o e : String) (code : Int) : List String :=
  (if trimS o ≠ "" then [stdoutSection o] else []) ++
    ((if trimS e ≠ "" then [stderrSection e] else []) ++
      (if code ≠ 0 then [exitSection code] else []))

def resultMessage (o e : String) (code : Int) : String :=
  if resultParts o e code = [] then "<hnt-shell-results></hnt-shell-results>"
  else "<hnt-shell-results>\n" ++ String.intercalate "\n" (resultParts o e code) ++
    "\n</hnt-shell-results>"

theorem append_ne_of_take_ne {A B x y : List Char} (n : Nat)
    (hn : A.take n ≠ B.take n) (hA : n ≤ A.length) (hB : n ≤ B.length) :
    A ++ x ≠ B ++ y := by
  intro h
  apply hn
  have := congrArg (List.take n) h
  rwa [List.take_append_of_le_length hA, List.take_append_of_le_length hB] at this

theorem stdoutSection_ne_stderrSection (o e : String) :
    stdoutSection o ≠ stderrSection e := by
  intro h
  have hd := congrArg String.data h
  simp only [stdoutSection, stderrSection, String.data_append, List.append_assoc] at hd
  exact append_ne_of_take_ne 5 (by decide) (by decide) (by decide) hd

theorem stdoutSection_ne_exitSection (o : String) (c : Int) :
    stdoutSection o ≠ exitSection c := by
  intro h
  have hd := congrArg String.data h
  simp only [stdoutSection, exitSection, String.data_append, List.append_assoc] at hd
  exact append_ne_of_take_ne 2 (by decide) (by decide) (by decide) hd

theorem stderrSection_ne_exitSection (e : String) (c : Int) :
    stderrSection e ≠ exitSection c := by
  intro h
  have hd := congrArg String.data h
  simp only [stderrSection, exitSection, String.data_append, List.append_assoc] at hd
  exact append_ne_of_take_ne 2 (by decide) (by decide) (by decide) hd

/-- C5 (confirmed): the result message contains a `<stdout>` section iff the
trimmed stdout is non-empty, a `<stderr>` section iff the trimmed stderr is
non-empty, and an `<exit_code>N</exit_code>` section iff `N ≠ 0`; the
message is composed totally (a nonzero exit status is data in the message,
not an error of the turn). -/
theorem C5_result_message_sections (o e : String) (code : Int) :
    (stdoutSection o ∈ resultParts o e code ↔ trimS o ≠ "") ∧
    (stderrSection e ∈ resultParts o e code ↔ trimS e ≠ "") ∧
    (exitSection code ∈ resultParts o e code ↔ code ≠ 0) ∧
    (resultParts o e code = [] →
      resultMessage o e code = "<hnt-shell-results></hnt-shell-results>") ∧
    (resultParts o e code ≠ [] →
      resultMessage o e code = "<hnt-shell-results>\n" ++
        String.intercalate "\n" (resultParts o e code) ++ "\n</hnt-shell-results>") := by
  refine ⟨?_, ?_, ?_, ?_, ?_⟩
  · constructor
    · intro hmem
      by_contra ho
      rw [resultParts] at hmem
      simp only [List.mem_append] at hmem
      rcases hmem with hmem | hmem | hmem
      · split at hmem
        · next hx => exact hx ho
        · cases hmem
      · split at hmem
        · rw [List.mem_singleton] at hmem
          exact stdoutSection_ne_stderrSection o e hmem
        · cases hmem
      · split at hmem
        · rw [List.mem_singleton] at hmem
          exact stdoutSection_ne_exitSection o code hmem
        · cases hmem
    · intro ho
      rw [resultParts, if_pos ho]
      simp
  · constructor
    · intro hmem
      by_contra he
      rw [resultParts] at hmem
      simp only [List.mem_append] at hmem
      rcases hmem with hmem | hmem | hmem
      · split at hmem
        · rw [List.mem_singleton] at hmem
          exact stdoutSection_ne_stderrSection o e hmem.symm
        · cases hmem
      · split at hmem
        · next hx => exact hx he
        · cases hmem
      · split at hmem
        · rw [List.mem_singleton] at hmem
          exact stderrSection_ne_exitSection e code hmem
        · cases hmem
    · intro he
      rw [resultParts, if_pos he]
      simp
  · constructor
    · intro hmem
      by_contra hcode
      rw [resultParts] at hmem
      simp only [List.mem_append] at hmem
      rcases hmem with hmem | hmem | hmem
      · split at hmem
        · rw [List.mem_singleton] at hmem
          exact stdoutSection_ne_exitSection o code hmem.symm
        · cases hmem
      · split at hmem
        · rw [List.mem_singleton] at hmem
          exact stderrSection_ne_exitSection e code hmem.symm
        · cases hmem
      · split at hmem
        · next hx => exact hx hcode
        · cases hmem
    · intro hcode
      rw [resultParts, if_pos hcode]
      simp
  · intro hempty
    rw [resultMessage, if_pos hempty]
  · intro hne
    rw [resultMessage, if_neg hne]

/-- Witness for C5: `exec_captured("false")`-style output — empty stdout and
stderr, exit code 1 — produces a message whose only section is
`<exit_code>1</exit_code>`, and the message itself wraps it. -/
theorem C5_result_message_sections_witness :
    (exitSection 1 ∈ resultParts "" "" 1 ↔ (1 : Int) ≠ 0) ∧
    resultMessage "" "" 1 = "<hnt-shell-results>\n" ++
      String.intercalate "\n" (resultParts "" "" 1) ++ "\n</hnt-shell-results>" :=
  ⟨(C5_result_message_sections "" "" 1).2.2.1,
   (C5_result_message_sections "" "" 1).2.2.2.2 (by decide)⟩

/-! ## Session creation (src/src/headlesh/src/lib.rs, claim C8)

`Session::create` validates the id, probes the session directory and its
`pid.lock`, and creates the session and log directories.  The filesystem
probes are modelled by a `SessionWorld` record; holding the lock
(`try_lock_exclusive` failing) is `lockHeld`.  `daemonRunning` is carried
through untouched: `create` never spawns the daemon. -/

inductive HeadleshError
  | invalidSessionId
  | sessionAlreadyExists
  | sessionNotFound
  | ioError
deriving DecidableEq

structure SessionWorld where
  sessionDirExists : Bool
  lockFileExists : Bool
  lockHeld : Bool
  logDirExists : Bool
  daemonRunning : Bool
deriving DecidableEq

/-- Rust `str::contains` for a literal pattern. -/
def containsSub (pat s : List Char) : Bool := (findSplit pat s).isSome

/-- Embedding of `Session::create`. -/
def sessionCreate (sessionId : String) (w : SessionWorld) :
    Except HeadleshError SessionWorld :=
  if sessionId.data.contains '/' || containsSub "..".toList sessionId.data then
    .error .invalidSessionId
  else if w.sessionDirExists && w.lockFileExists && w.lockHeld then
    .error .sessionAlreadyExists
  else
    .ok { w with sessionDirExists := true, logDirExists := true }

/-- C8 (confirmed): `Session::create` returns `InvalidSessionId` for every
session id containing `/` or `..`; otherwise it returns
`SessionAlreadyExists` exactly when the session directory exists and its
`pid.lock` is currently held by a live daemon; otherwise it succeeds,
creating the session and log directories and leaving the daemon state
untouched (the daemon is not started). -/
theorem C8_session_create (sessionId : String) (w : SessionWorld) :
    ((sessionId.data.contains '/' || containsSub "..".toList sessionId.data) = true →
      sessionCreate sessionId w = .error .invalidSessionId) ∧
    ((sessionId.data.contains '/' || containsSub "..".toList sessionId.data) = false →
      (w.sessionDirExists && w.lockFileExists && w.lockHeld) = true →
      sessionCreate sessionId w = .error .sessionAlreadyExists) ∧
    ((sessionId.data.contains '/' || containsSub "..".toList sessionId.data) = false →
      (w.sessionDirExists && w.lockFileExists && w.lockHeld) = false →
      sessionCreate sessionId w =
        .ok ⟨true, w.lockFileExists, w.lockHeld, true, w.daemonRunning⟩) := by
  refine ⟨?_, ?_, ?_⟩
  · intro hbad
    rw [sessionCreate, if_pos hbad]
  · intro hok hlock
    rw [sessionCreate, if_neg (by rw [hok]; simp), if_pos hlock]
  · intro hok hfree
    rw [sessionCreate, if_neg (by rw [hok]; simp), if_neg (by rw [hfree]; simp)]

/-- Witness for C8: all three branches at concrete inputs — a slash id, a
live locked session, and a fresh id on a world without a held lock (the
daemon flag is visibly unchanged). -/
theorem C8_session_create_witness :
    sessionCreate "a/b" ⟨false, false, false, false, false⟩ =
      .error .invalidSessionId ∧
    sessionCreate "work" ⟨true, true, true, true, true⟩ =
      .error .sessionAlreadyExists ∧
    sessionCreate "work" ⟨true, true, false, false, false⟩ =
      .ok ⟨true, true, false, true, false⟩ :=
  ⟨(C8_session_create "a/b" ⟨false, false, false, false, false⟩).1 (by decide),
   (C8_session_create "work" ⟨true, true, true, true, true⟩).2.1 (by decide) (by decide),
   (C8_session_create "work" ⟨true, true, false, false, false⟩).2.2 (by decide) (by decide)⟩

/-! ## LLM stream decoder (src/src/libhinata-core/src/llm.rs, claim C9)

`stream_llm_response` buffers network bytes, splits them into SSE blocks at
`\n\n` / `\r\n\r\n` terminators, splits each block into lines, and for
every `data: ` line: trims, skips empties, ends the stream at `[DONE]`,
otherwise parses JSON and yields a non-empty Reasoning event
(`reasoning_content` falling back to `reasoning`) and then a non-empty
Content event from `choices[0].delta`.  The embedding models the decoded
stream after framing: input is the list of blocks of lines, and JSON
deserialization (the external `serde_json` crate) is an oracle
`parse : String → Option ApiResponseChunkE` the theorems quantify over. -/

inductive LlmStreamEvent
  | content (text : String)
  | reasoning (text : String)
deriving DecidableEq

structure DeltaE where
  content : Option String
  reasoning : Option String
  reasoningContent : Option String
deriving DecidableEq

/-- `ApiResponseChunk`: each element of `choices` is one delta. -/
structure ApiResponseChunkE where
  choices : List DeltaE
deriving DecidableEq

/-- One line of an SSE block: either a `data: `-prefixed payload or any
other line (ignored by the decoder). -/
inductive SseLineE
  | other
  | data (payload : String)
deriving DecidableEq

def eventText : LlmStreamEvent → String
  | .content t => t
  | .reasoning t => t

/-- `delta.reasoning_content.as_deref().or(delta.reasoning.as_deref())`. -/
def reasoningText (d : DeltaE) : Option String :=
  match d.reasoningContent with
  | some t => some t
  | none => d.reasoning

/-- Events yielded for one parsed chunk (`choices.first()`; Reasoning before
Content; empty strings suppressed). -/
def eventsOfChunk (c : ApiResponseChunkE) : List LlmStreamEvent :=
  match c.choices.head? with
  | none => []
  | some d =>
    (match reasoningText d with
     | some t => if t ≠ "" then [LlmStreamEvent.reasoning t] else []
     | none => []) ++
    (match d.content with
     | some t => if t ≠ "" then [LlmStreamEvent.content t] else []
     | none => [])

/-- Events of one line plus the done flag. -/
def processLine (parse : String → Option ApiResponseChunkE) (l : SseLineE) :
    List LlmStreamEvent × Bool :=
  match l with
  | .other => ([], false)
  | .data s =>
    if trimS s = "" then ([], false)
    else if trimS s = "[DONE]" then ([], true)
    else match parse (trimS s) with
      | some chunk => (eventsOfChunk chunk, false)
      | none => ([], false)

/-- The per-block line loop; `break` on `[DONE]`. -/
def processBlock (parse : String → Option ApiResponseChunkE) :
    List SseLineE → List LlmStreamEvent × Bool
  | [] => ([], false)
  | l :: rest =>
    let p := processLine parse l
    if p.2 then (p.1, true)
    else
      let q := processBlock parse rest
      (p.1 ++ q.1, q.2)

/-- The outer loop over terminated blocks; stops after a done block. -/
def decodeBlocks (parse : String → Option ApiResponseChunkE) :
    List (List SseLineE) → List LlmStreamEvent
  | [] => []
  | blk :: rest =>
    let p := processBlock parse blk
    if p.2 then p.1 else p.1 ++ decodeBlocks parse rest

def isDoneLine : SseLineE → Bool
  | .other => false
  | .data s => trimS s = "[DONE]"

theorem eventsOfChunk_ne_empty (c : ApiResponseChunkE) :
    ∀ ev ∈ eventsOfChunk c, eventText ev ≠ "" := by
  intro ev hmem
  rw [eventsOfChunk] at hmem
  cases hh : c.choices.head? with
  | none =>
    simp only [hh] at hmem
    cases hmem
  | some d =>
    simp only [hh, List.mem_append] at hmem
    rcases hmem with hmem | hmem
    · cases hr : reasoningText d with
      | none =>
        simp only [hr] at hmem
        cases hmem
      | some t =>
        simp only [hr] at hmem
        split at hmem
        · rw [List.mem_singleton] at hmem
          subst hmem
          assumption
        · cases hmem
    · cases hc : d.content with
      | none =>
        simp only [hc] at hmem
        cases hmem
      | some t =>
        simp only [hc] at hmem
        split at hmem
        · rw [List.mem_singleton] at hmem
          subst hmem
          assumption
        · cases hmem

theorem processLine_ne_empty (parse : String → Option ApiResponseChunkE) (l : SseLineE) :
    ∀ ev ∈ (processLine parse l).1, eventText ev ≠ "" := by
  intro ev hmem
  cases l with
  | other => cases hmem
  | data s =>
    rw [processLine] at hmem
    split at hmem
    · cases hmem
    · split at hmem
      · cases hmem
      · cases hp : parse (trimS s) with
        | none => rw [hp] at hmem; cases hmem
        | some chunk =>
          rw [hp] at hmem
          exact eventsOfChunk_ne_empty chunk ev hmem

theorem processBlock_ne_empty (parse : String → Option ApiResponseChunkE) :
    ∀ blk ev, ev ∈ (processBlock parse blk).1 → eventText ev ≠ "" := by
  intro blk
  induction blk with
  | nil => intro ev hmem; cases hmem
  | cons l rest ih =>
    intro ev hmem
    rw [processBlock] at hmem
    split at hmem
    · exact processLine_ne_empty parse l ev hmem
    · rw [List.mem_append] at hmem
      rcases hmem with hmem | hmem
      · exact processLine_ne_empty parse l ev hmem
      · exact ih ev hmem

theorem processLine_done (parse : String → Option ApiResponseChunkE) {l : SseLineE}
    (h : isDoneLine l = true) : processLine parse l = ([], true) := by
  cases l with
  | other => cases h
  | data s =>
    rw [isDoneLine] at h
    rw [decide_eq_true_eq] at h
    rw [processLine, if_neg (by rw [h]; decide), if_pos h]

theorem processLine_not_done {parse : String → Option ApiResponseChunkE} {l : SseLineE}
    (h : isDoneLine l = false) : (processLine parse l).2 = false := by
  cases l with
  | other => rfl
  | data s =>
    rw [isDoneLine] at h
    rw [decide_eq_false_iff_not] at h
    rw [processLine]
    by_cases h1 : trimS s = ""
    · rw [if_pos h1]
    · rw [if_neg h1, if_neg h]
      cases parse (trimS s) <;> rfl

theorem processBlock_not_done (parse : String → Option ApiResponseChunkE) :
    ∀ blk, (∀ l ∈ blk, isDoneLine l = false) → (processBlock parse blk).2 = false := by
  intro blk
  induction blk with
  | nil => intro _; rfl
  | cons l rest ih =>
    intro h
    rw [processBlock]
    rw [if_neg (by
      rw [processLine_not_done (h l (List.mem_cons_self _ _))]
      simp)]
    exact ih (fun x hx => h x (List.mem_cons_of_mem _ hx))

theorem processBlock_stops_at_done (parse : String → Option ApiResponseChunkE)
    (pre post : List SseLineE) (dl : SseLineE)
    (hpre : ∀ l ∈ pre, isDoneLine l = false) (hdl : isDoneLine dl = true) :
    processBlock parse (pre ++ dl :: post) = ((processBlock parse pre).1, true) := by
  induction pre with
  | nil =>
    rw [List.nil_append]
    show processBlock parse (dl :: post) = _
    simp only [processBlock, processLine_done parse hdl]
    rfl
  | cons l pre' ih =>
    have hl : (processLine parse l).2 = false :=
      processLine_not_done (hpre l (List.mem_cons_self _ _))
    rw [List.cons_append]
    show processBlock parse (l :: (pre' ++ dl :: post)) = _
    simp only [processBlock, hl, Bool.false_eq_true, if_false,
      ih (fun x hx => hpre x (List.mem_cons_of_mem _ hx))]

theorem decodeBlocks_append_no_done (parse : String → Option ApiResponseChunkE) :
    ∀ (bs rest : List (List SseLineE)),
      (∀ blk ∈ bs, ∀ l ∈ blk, isDoneLine l = false) →
      decodeBlocks parse (bs ++ rest) = decodeBlocks parse bs ++ decodeBlocks parse rest := by
  intro bs
  induction bs with
  | nil => intro rest _; simp [decodeBlocks]
  | cons blk bs' ih =>
    intro rest h
    have hb : (processBlock parse blk).2 = false :=
      processBlock_not_done parse blk (h blk (List.mem_cons_self _ _))
    rw [List.cons_append]
    show decodeBlocks parse (blk :: (bs' ++ rest)) = _
    simp only [decodeBlocks, hb, Bool.false_eq_true, if_false,
      ih rest (fun x hx => h x (List.mem_cons_of_mem _ hx))]
    rw [List.append_assoc]

/-- Oracle for the concrete scenario: three JSON payloads decoding to a
reasoning delta `thi`, a reasoning delta `nk` and a content delta
`answer`. -/
def exampleParse : String → Option ApiResponseChunkE := fun s =>
  if s = "r1" then some ⟨[⟨none, some "thi", none⟩]⟩
  else if s = "r2" then some ⟨[⟨none, some "nk", none⟩]⟩
  else if s = "c1" then some ⟨[⟨some "answer", none, none⟩]⟩
  else none

/-- C9 (confirmed): the decoder never yields an event carrying the empty
string; within one delta carrying both fields the Reasoning event precedes
the Content event; no events are yielded after a `data: [DONE]` line; and
the concrete reasoning/reasoning/content/[DONE] stream decodes to exactly
Reasoning("thi"), Reasoning("nk"), Content("answer"). -/
theorem C9_stream_decoder :
    (∀ (parse : String → Option ApiResponseChunkE) (blocks : List (List SseLineE))
       (ev : LlmStreamEvent), ev ∈ decodeBlocks parse blocks → eventText ev ≠ "") ∧
    (∀ (d : DeltaE) (r c : String), reasoningText d = some r → r ≠ "" →
       d.content = some c → c ≠ "" →
       eventsOfChunk ⟨[d]⟩ = [LlmStreamEvent.reasoning r, LlmStreamEvent.content c]) ∧
    (∀ (parse : String → Option ApiResponseChunkE) (bs₁ bs₂ : List (List SseLineE))
       (pre post : List SseLineE) (dl : SseLineE),
       (∀ blk ∈ bs₁, ∀ l ∈ blk, isDoneLine l = false) →
       (∀ l ∈ pre, isDoneLine l = false) → isDoneLine dl = true →
       decodeBlocks parse (bs₁ ++ (pre ++ dl :: post) :: bs₂) =
         decodeBlocks parse bs₁ ++ (processBlock parse pre).1) ∧
    decodeBlocks exampleParse
        [[.data "r1"], [.data "r2"], [.data "c1"], [.data "[DONE]"], [.data "c1"]] =
      [LlmStreamEvent.reasoning "thi", LlmStreamEvent.reasoning "nk",
       LlmStreamEvent.content "answer"] := by
  refine ⟨?_, ?_, ?_, by decide⟩
  · intro parse blocks
    induction blocks with
    | nil => intro ev hmem; cases hmem
    | cons blk rest ih =>
      intro ev hmem
      rw [decodeBlocks] at hmem
      split at hmem
      · exact processBlock_ne_empty parse blk ev hmem
      · rw [List.mem_append] at hmem
        rcases hmem with hmem | hmem
        · exact processBlock_ne_empty parse blk ev hmem
        · exact ih ev hmem
  · intro d r c hr hrne hc hcne
    simp [eventsOfChunk, hr, hc, hrne, hcne]
  · intro parse bs₁ bs₂ pre post dl h1 h2 h3
    rw [decodeBlocks_append_no_done parse bs₁ _ h1]
    congr 1
    rw [decodeBlocks, processBlock_stops_at_done parse pre post dl h2 h3]
    rfl

/-- Witness for C9: the nothing-after-done conjunct at the concrete stream
(the trailing `c1` block is discarded), and the two-field delta ordering at
a concrete delta. -/
theorem C9_stream_decoder_witness :
    decodeBlocks exampleParse
        [[.data "r1"], [.data "[DONE]", .data "c1"], [.data "c1"]] =
      decodeBlocks exampleParse [[.data "r1"]] ++
        (processBlock exampleParse []).1 ∧
    eventsOfChunk ⟨[⟨some "answer", some "thi", none⟩]⟩ =
      [LlmStreamEvent.reasoning "thi", LlmStreamEvent.content "answer"] :=
  ⟨C9_stream_decoder.2.2.1 exampleParse [[.data "r1"]] [[.data "c1"]] [] [.data "c1"]
      (.data "[DONE]") (by decide) (by decide) (by decide),
   C9_stream_decoder.2.1 ⟨some "answer", some "thi", none⟩ "thi" "answer"
      (by decide) (by decide) (by decide) (by decide)⟩

end Hinata
